import Mathlib

/-!
Verification model of the frontmatter-fixer program.

The delimiter parser (`Frontmatter.parse_raw`, `Frontmatter.parse`,
`Frontmatter.write`) is translated from `src/frontmatter.rs`.  Strings are
modelled as `List Char`; Rust's `str::match_indices("---\n")` is modelled by
`Frontmatter.findRule`, which returns the index of the first occurrence of the
delimiter (occurrences of `"---\n"` cannot overlap, because the pattern ends in
a newline while its other characters are hyphens, so the non-overlapping
iterator of Rust visits exactly the occurrences of the pattern in order).

The engine wiring of `src/main.rs` (`Fixer::new`, `Fixer::fix`, the document
loop of `main`) is translated in the `Engine` namespace.  The parts of the
behaviour supplied by external crates (the YAML codec of `serde_yaml`, the Lua
interpreter and serde bridge of `mlua`) are modelled from the spec, as noted on
each such definition.
-/

namespace Frontmatter

/-- The frontmatter delimiter, the literal string `"---\n"` from
`src/frontmatter.rs`. -/
def RULE : List Char := ['-', '-', '-', '\n']

/-- Length of the delimiter (`RULE_LENGTH` in `src/frontmatter.rs`); all
delimiter characters are ASCII so Rust byte indices coincide with character
indices. -/
def RULE_LENGTH : Nat := 4

/-- Index of the first occurrence of `RULE` as a contiguous substring, if any.
This models the first hit of Rust's `s.match_indices("---\n")`. -/
def findRule : List Char → Option Nat
  | [] => none
  | c :: cs =>
    if RULE.isPrefixOf (c :: cs) then some 0
    else (findRule cs).map (· + 1)

/-- Translation of `parse_raw` from `src/frontmatter.rs`: if the first
occurrence of the delimiter is at position 0, look for the next occurrence
(the Rust iterator resumes at byte 4, i.e. it searches `s.drop RULE_LENGTH`);
on success the metadata slice is `s[start..close]` and the body is
`s[content_start..]`.  The two `assert!` statements of the source are
index-bound facts proved separately (see the C10 theorem). -/
def parse_raw (s : List Char) : Option (List Char) × List Char :=
  match findRule s with
  | some 0 =>
    match findRule (s.drop RULE_LENGTH) with
    | some k =>
      let close := RULE_LENGTH + k
      let content_start := close + RULE_LENGTH
      (some ((s.drop RULE_LENGTH).take k), s.drop content_start)
    | none => (none, s)
  | _ => (none, s)

/-- The structured metadata value (`serde_yaml::Value` in the source).
Modelled from the spec: a recursive value type with variants null, boolean,
number, string, sequence, and (string-keyed) mapping. -/
inductive YamlValue where
  | null
  | bool (b : Bool)
  | num (n : Int)
  | str (s : List Char)
  | seq (items : List YamlValue)
  | mapping (entries : List (List Char × YamlValue))

/-- Error raised when metadata block text cannot be decoded. -/
inductive DecodeError where
  | emptyInput
  | malformed

/-- Split a line at its first colon, returning the text before and after. -/
def splitColon : List Char → Option (List Char × List Char)
  | [] => none
  | c :: cs =>
    if c = ':' then some ([], cs)
    else (splitColon cs).map (fun p => (c :: p.1, p.2))

/-- Parse one metadata line `key ++ ": " ++ value` into its key and value.
The key must be non-empty (and by construction of `splitColon` contains no
colon), and the colon must be followed by a single space. -/
def parseLine (l : List Char) : Option (List Char × List Char) :=
  match splitColon l with
  | some (k, c :: v) =>
    if c = ' ' then (if k.isEmpty then none else some (k, v)) else none
  | _ => none

/-- Scan the metadata block character by character, accumulating the current
line (in reverse) in `cur`; every `'\n'` terminates a line which must parse as
a `key: value` pair, and the block must end exactly at a line boundary. -/
def decodeLinesAux : List Char → List Char → Option (List (List Char × List Char))
  | cur, [] => if cur.isEmpty then some [] else none
  | cur, c :: cs =>
    if c = '\n' then
      match parseLine cur.reverse with
      | none => none
      | some kv => (decodeLinesAux [] cs).map (kv :: ·)
    else
      decodeLinesAux (c :: cur) cs

/-- Modelled from the spec: the metadata decoder (`serde_yaml::from_str` in
the source, which is an external crate).  Per the spec it deserializes the
block with a mapping-oriented human-readable grammar; deserialization of an
empty string fails (it is not a valid top-level mapping, as the repository's
own `parses_empty_yfm` test records), and structurally invalid text fails with
a decode error.  The model accepts the canonical flat grammar of newline
terminated `key: value` lines and decodes every value as a string scalar. -/
def yaml_from_str (s : List Char) : Except DecodeError YamlValue :=
  if s.isEmpty then .error .emptyInput
  else
    match decodeLinesAux [] s with
    | none => .error .malformed
    | some kvs => .ok (.mapping (kvs.map (fun p => (p.1, .str p.2))))

/-- Serialization of a scalar metadata value to its text form. -/
def encodeScalar : YamlValue → List Char
  | .str s => s
  | .bool b => (cond b "true" "false").toList
  | .num n => (toString n).toList
  | .null => "null".toList
  | .seq _ => []
  | .mapping _ => []

/-- Serialization of the entries of a mapping, one `key: value` line each. -/
def encodeKVs : List (List Char × YamlValue) → List Char
  | [] => []
  | (k, v) :: rest => k ++ ':' :: ' ' :: (encodeScalar v ++ '\n' :: encodeKVs rest)

/-- Modelled from the spec: the metadata serializer (`serde_yaml::to_writer`
and `serde_yaml::to_string` in the source, an external crate).  Per the spec,
serialization is deterministic with stable key ordering, so round-tripping an
unmodified value reproduces byte-identical metadata text; the model serializes
a mapping as `key: value` lines in entry order and a scalar on a single
line. -/
def yaml_to_string : YamlValue → List Char
  | .mapping kvs => encodeKVs kvs
  | v => encodeScalar v ++ ['\n']

/-- Translation of `parse` from `src/frontmatter.rs`: split the raw document,
then decode the metadata block if one is present (`Option.map`; when no block
is present no decoding is attempted). -/
def parse (s : List Char) : Option (Except DecodeError YamlValue) × List Char :=
  ((parse_raw s).1.map yaml_from_str, (parse_raw s).2)

/-- Translation of `write` from `src/frontmatter.rs`: when metadata is
present, emit the opening delimiter, the serialized metadata, the closing
delimiter and then the content; when it is absent, emit the content alone. -/
def write (frontmatter : Option YamlValue) (content : List Char) : List Char :=
  match frontmatter with
  | some v => RULE ++ (yaml_to_string v ++ (RULE ++ content))
  | none => content

end Frontmatter

namespace Engine

/-- Modelled from the spec: the Lua-native value space seen through the
`mlua` bridge (an external crate).  Tables appear in the two shapes the serde
bridge produces: array-like (`arr`, integer keys 1..n) and map-like (`table`,
string keys); `function` stands for any native value with no structured
counterpart (functions, opaque handles). -/
inductive LuaValue where
  | nil
  | boolean (b : Bool)
  | number (n : Int)
  | str (s : List Char)
  | arr (items : List LuaValue)
  | table (entries : List (List Char × LuaValue))
  | function

mutual
/-- Modelled from the spec: `lua.to_value` of the serde bridge, the total
variant-by-variant mapping from structured values into the engine's value
space. -/
def toLua : Frontmatter.YamlValue → LuaValue
  | .null => .nil
  | .bool b => .boolean b
  | .num n => .number n
  | .str s => .str s
  | .seq items => .arr (toLuaList items)
  | .mapping entries => .table (toLuaEntries entries)
def toLuaList : List Frontmatter.YamlValue → List LuaValue
  | [] => []
  | v :: rest => toLua v :: toLuaList rest
def toLuaEntries : List (List Char × Frontmatter.YamlValue) →
    List (List Char × LuaValue)
  | [] => []
  | (k, v) :: rest => (k, toLua v) :: toLuaEntries rest
end

/-- Error raised when an engine value has no structured counterpart. -/
inductive ConversionError where
  | unrepresentable

mutual
/-- Modelled from the spec: `lua.from_value` of the serde bridge, converting
an engine value back into a structured value; a value with no structured
counterpart is a recoverable, document-scoped conversion error. -/
def fromLuaValue : LuaValue → Except ConversionError Frontmatter.YamlValue
  | .nil => .ok .null
  | .boolean b => .ok (.bool b)
  | .number n => .ok (.num n)
  | .str s => .ok (.str s)
  | .function => .error .unrepresentable
  | .arr items => do pure (.seq (← fromLuaArr items))
  | .table entries => do pure (.mapping (← fromLuaEntries entries))
def fromLuaArr : List LuaValue → Except ConversionError (List Frontmatter.YamlValue)
  | [] => .ok []
  | v :: rest => do pure ((← fromLuaValue v) :: (← fromLuaArr rest))
def fromLuaEntries : List (List Char × LuaValue) →
    Except ConversionError (List (List Char × Frontmatter.YamlValue))
  | [] => .ok []
  | (k, v) :: rest => do pure ((k, ← fromLuaValue v) :: (← fromLuaEntries rest))
end

/-- The global environment of the long-lived Lua interpreter, as an ordered
association list from names to values. -/
abbrev Globals := List (List Char × LuaValue)

/-- Name of the script-visible metadata binding. -/
def metaName : List Char := ['m', 'e', 't', 'a']

/-- Name of the script-visible body binding. -/
def contentName : List Char := ['c', 'o', 'n', 't', 'e', 'n', 't']

/-- Look up a key in an association list (used for globals and for table
fields); absent keys read as Lua `nil`, surfaced here as `none`. -/
def lookupEntry : List (List Char × LuaValue) → List Char → Option LuaValue
  | [], _ => none
  | (k, v) :: rest, n => if k = n then some v else lookupEntry rest n

/-- Remove a key from an association list (the `raw_remove` of the source). -/
def removeEntry : List (List Char × LuaValue) → List Char → List (List Char × LuaValue)
  | [], _ => []
  | (k, v) :: rest, n =>
    if k = n then removeEntry rest n else (k, v) :: removeEntry rest n

/-- Replace the value of a key in an association list, appending it if
absent. -/
def setEntry : List (List Char × LuaValue) → List Char → LuaValue →
    List (List Char × LuaValue)
  | [], n, v => [(n, v)]
  | (k, w) :: rest, n, v =>
    if k = n then (n, v) :: rest else (k, w) :: setEntry rest n v

/-- Lua assignment semantics for a table slot: storing `nil` removes the key,
any other value replaces it. -/
def setVal (es : List (List Char × LuaValue)) (n : List Char) (v : LuaValue) :
    List (List Char × LuaValue) :=
  match v with
  | .nil => removeEntry es n
  | _ => setEntry es n v

/-- Modelled from the spec: the expressions a script can evaluate against the
global environment — constants, reads of a global, and reads of a field of a
global. -/
inductive Expr where
  | const (v : LuaValue)
  | global (name : List Char)
  | index (name : List Char) (key : List Char)

/-- A script runtime error (Lua raises `attempt to index` both when reading a
field of a non-indexable value and when writing a field onto one). -/
inductive ScriptError where
  | attemptToIndex

/-- Modelled from the spec: the statements of the user script that touch the
host-visible state — assigning a global, and writing a field of a global.
This is the mutation surface the script-execution contract governs. -/
inductive Stmt where
  | assign (name : List Char) (e : Expr)
  | setIndex (name : List Char) (key : List Char) (e : Expr)

/-- Evaluate an expression against the globals.  Reading an absent global or
an absent field yields `nil`; reading a field of a string or of an array-like
table yields `nil` (strings answer field reads through their metatable);
reading a field of `nil`, a boolean, a number or a function is a runtime
error. -/
def eval (g : Globals) : Expr → Except ScriptError LuaValue
  | .const v => .ok v
  | .global n => .ok ((lookupEntry g n).getD .nil)
  | .index n k =>
    match (lookupEntry g n).getD .nil with
    | .table es => .ok ((lookupEntry es k).getD .nil)
    | .str _ => .ok .nil
    | .arr _ => .ok .nil
    | _ => .error .attemptToIndex

/-- Execute one statement.  Assigning a global stores the value (`nil`
removes the binding, per Lua semantics).  Writing a field succeeds only when
the target global holds a map-like table; writing a field onto any other
value — in particular onto the opaque string bound to `content` — fails at
the moment of attempted mutation. -/
def execStmt (g : Globals) : Stmt → Except ScriptError Globals
  | .assign n e => do pure (setVal g n (← eval g e))
  | .setIndex n k e => do
    let v ← eval g e
    match (lookupEntry g n).getD .nil with
    | .table es => pure (setEntry g n (.table (setVal es k v)))
    | _ => .error .attemptToIndex

/-- Run a list of statements in order, stopping at the first runtime error;
the globals mutated so far persist across the error, as they do in the
long-lived interpreter of the source. -/
def runStmts : List Stmt → Globals → Globals × Option ScriptError
  | [], g => (g, none)
  | st :: rest, g =>
    match execStmt g st with
    | .ok g' => runStmts rest g'
    | .error e => (g, some e)

/-- The error taxonomy of a run, following §7 of the spec and the `eyre`
error chains of `src/main.rs`. -/
inductive FixError where
  | decode (e : Frontmatter.DecodeError)
  | script (e : ScriptError)
  | conversion (e : ConversionError)
  | compile

/-- Translation of the first half of `Fixer::fix` (`src/main.rs` lines
175-196): parse the document; when a metadata block exists, decode it
(failure aborts the document before any global is touched) and overwrite the
`meta` global with its bridged value; when none exists, explicitly remove any
previous `meta` binding; finally bind `content` to the body text. -/
def bindDoc (g : Globals) (doc : List Char) :
    Except FixError (Globals × List Char) :=
  match (Frontmatter.parse_raw doc).1 with
  | some m =>
    match Frontmatter.yaml_from_str m with
    | .error e => .error (.decode e)
    | .ok v =>
      .ok (setVal (setVal g metaName (toLua v)) contentName
        (.str (Frontmatter.parse_raw doc).2), (Frontmatter.parse_raw doc).2)
  | none =>
    .ok (setVal (removeEntry g metaName) contentName
      (.str (Frontmatter.parse_raw doc).2), (Frontmatter.parse_raw doc).2)

/-- Translation of the read-back tail of `Fixer::fix` (`src/main.rs` lines
218-226): read `meta` from the globals (absent reads as Lua `nil`, which the
serde bridge deserializes to `None`), and otherwise convert it back to a
structured value, surfacing conversion failure as an error. -/
def readBack (g : Globals) : Except ConversionError (Option Frontmatter.YamlValue) :=
  match lookupEntry g metaName with
  | none => .ok none
  | some v =>
    match fromLuaValue v with
    | .error e => .error e
    | .ok y => .ok (some y)

/-- The precompiled-script fixer of `src/main.rs` (the `lua` interpreter
handle itself carries no modelled state beyond the globals threaded through
`Fixer.fix`). -/
structure Fixer where
  script : List Stmt

/-- Translation of `Fixer::fix` (`src/main.rs` lines 171-227) in script mode:
bind the document's metadata and body, run the precompiled script, and read
back `meta`; the returned body is the slice captured by the parser before the
script ran.  The globals after the call are returned alongside the
per-document result, since the interpreter session outlives the document. -/
def Fixer.fix (f : Fixer) (g : Globals) (doc : List Char) :
    Globals × Except FixError (Option Frontmatter.YamlValue × List Char) :=
  match bindDoc g doc with
  | .error e => (g, .error e)
  | .ok (g₂, content) =>
    match runStmts f.script g₂ with
    | (g₃, some e) => (g₃, .error (.script e))
    | (g₃, none) =>
      match readBack g₃ with
      | .error e => (g₃, .error (.conversion e))
      | .ok m => (g₃, .ok (m, content))

/-- Modelled from the spec: the script source handed to `Fixer::new`; the
compilation outcome of `lua.load(...).into_function()` (an external crate) is
abstracted as the source being valid or invalid. -/
inductive ScriptSource where
  | valid (stmts : List Stmt)
  | invalid

/-- Translation of `Fixer::new` (`src/main.rs` lines 143-169): precompile the
shared script once up front; a compile failure is propagated out of
construction, before any document is processed. -/
def Fixer.new : ScriptSource → Except FixError Fixer
  | .valid stmts => .ok ⟨stmts⟩
  | .invalid => .error .compile

/-- Globals of a freshly created interpreter (the registered `yaml_dump`
utility is a host function, not part of the modelled mutation surface). -/
def emptyGlobals : Globals := []

/-- Translation of the document loop of `main` (`src/main.rs` lines 78-93):
each document is processed in input order against the shared session; a
per-document error is caught at the loop boundary, recorded positionally for
that document, and the remaining documents are still attempted. -/
def processAll (f : Fixer) :
    Globals → List (List Char) →
      List (Except FixError (Option Frontmatter.YamlValue × List Char))
  | _, [] => []
  | g, doc :: docs =>
    let r := f.fix g doc
    r.2 :: processAll f r.1 docs

/-- Translation of the run-level control flow of `main`: construct the fixer
(a script compile error aborts the whole run here, before any document), then
process every document of the batch. -/
def mainRun (src : ScriptSource) (docs : List (List Char)) :
    Except FixError
      (List (Except FixError (Option Frontmatter.YamlValue × List Char))) :=
  match Fixer.new src with
  | .error e => .error e
  | .ok f => .ok (processAll f emptyGlobals docs)

end Engine

namespace Frontmatter

theorem isPrefixOf_eq_true_iff {l₁ l₂ : List Char} :
    l₁.isPrefixOf l₂ = true ↔ ∃ t, l₂ = l₁ ++ t := by
  induction l₁ generalizing l₂ with
  | nil => simp [List.isPrefixOf]
  | cons a l ih =>
    cases l₂ with
    | nil => simp [List.isPrefixOf]
    | cons b l' =>
      simp only [List.isPrefixOf, List.cons_append, Bool.and_eq_true, beq_iff_eq, ih]
      constructor
      · rintro ⟨rfl, t, rfl⟩
        exact ⟨t, rfl⟩
      · rintro ⟨t, h⟩
        cases h
        exact ⟨rfl, t, rfl⟩

theorem isInfix_iff_exists_append {l t : List Char} :
    l <:+: t ↔ ∃ u v, t = u ++ (l ++ v) := by
  constructor
  · rintro ⟨u, v, rfl⟩
    exact ⟨u, v, by simp⟩
  · rintro ⟨u, v, rfl⟩
    exact ⟨u, v, by simp⟩

theorem not_infix_nil : ¬ RULE <:+: ([] : List Char) := by
  rw [isInfix_iff_exists_append]
  rintro ⟨u, v, h⟩
  have hl := congrArg List.length h
  simp [RULE] at hl
  omega

theorem isInfix_of_isInfix_cons {c : Char} {m : List Char} (h : RULE <:+: m) :
    RULE <:+: (c :: m) := by
  rw [isInfix_iff_exists_append] at h ⊢
  obtain ⟨u, v, rfl⟩ := h
  exact ⟨c :: u, v, rfl⟩

/-- If the delimiter occurs at the very start of `(a :: m) ++ RULE ++ b`, it
already occurs inside `a :: m`: an occurrence starting at position 0 either
lies wholly inside `a :: m` (length ≥ 4), or would force a `'\n'` where one of
the opening hyphens of the appended delimiter sits. -/
theorem rule_infix_of_prefixOf_head {a : Char} {m b : List Char}
    (hp : RULE.isPrefixOf ((a :: m) ++ (RULE ++ b)) = true) :
    RULE <:+: (a :: m) := by
  obtain ⟨t, ht⟩ := isPrefixOf_eq_true_iff.1 hp
  match m, ht with
  | [], ht =>
    rw [show ([a] ++ (RULE ++ b)) = a :: '-' :: '-' :: '-' :: '\n' :: b from rfl,
      show RULE ++ t = '-' :: '-' :: '-' :: '\n' :: t from rfl] at ht
    injection ht with h1 ht; injection ht with h2 ht
    injection ht with h3 ht; injection ht with h4 ht
    exact absurd h4 (by decide)
  | [x], ht =>
    rw [show ([a, x] ++ (RULE ++ b)) = a :: x :: '-' :: '-' :: '-' :: '\n' :: b from rfl,
      show RULE ++ t = '-' :: '-' :: '-' :: '\n' :: t from rfl] at ht
    injection ht with h1 ht; injection ht with h2 ht
    injection ht with h3 ht; injection ht with h4 ht
    exact absurd h4 (by decide)
  | [x, y], ht =>
    rw [show ([a, x, y] ++ (RULE ++ b)) = a :: x :: y :: '-' :: '-' :: '-' :: '\n' :: b from rfl,
      show RULE ++ t = '-' :: '-' :: '-' :: '\n' :: t from rfl] at ht
    injection ht with h1 ht; injection ht with h2 ht
    injection ht with h3 ht; injection ht with h4 ht
    exact absurd h4 (by decide)
  | x :: y :: z :: rest, ht =>
    rw [show ((a :: x :: y :: z :: rest) ++ (RULE ++ b))
        = a :: x :: y :: z :: (rest ++ (RULE ++ b)) from rfl,
      show RULE ++ t = '-' :: '-' :: '-' :: '\n' :: t from rfl] at ht
    injection ht with h1 ht; injection ht with h2 ht
    injection ht with h3 ht; injection ht with h4 ht
    subst h1; subst h2; subst h3; subst h4
    rw [isInfix_iff_exists_append]
    exact ⟨[], rest, rfl⟩

theorem findRule_cons (c : Char) (cs : List Char) :
    findRule (c :: cs) =
      if RULE.isPrefixOf (c :: cs) then some 0 else (findRule cs).map (· + 1) := rfl

/-- When the delimiter does not occur inside `m`, the first occurrence of the
delimiter in `m ++ RULE ++ b` is exactly at index `m.length`. -/
theorem findRule_append : ∀ (m b : List Char), ¬ RULE <:+: m →
    findRule (m ++ (RULE ++ b)) = some m.length
  | [], b, _ => by
    have hp : RULE.isPrefixOf (RULE ++ b) = true := isPrefixOf_eq_true_iff.2 ⟨b, rfl⟩
    show findRule (RULE ++ b) = some 0
    rw [show RULE ++ b = '-' :: ('-' :: '-' :: '\n' :: b) from rfl] at hp ⊢
    rw [findRule_cons, hp]
    rfl
  | c :: m, b, h => by
    have hp : RULE.isPrefixOf ((c :: m) ++ (RULE ++ b)) = false := by
      cases hb : RULE.isPrefixOf ((c :: m) ++ (RULE ++ b)) with
      | false => rfl
      | true => exact absurd (rule_infix_of_prefixOf_head hb) h
    have ih := findRule_append m b (fun hm => h (isInfix_of_isInfix_cons hm))
    rw [List.cons_append] at hp
    rw [List.cons_append, findRule_cons, hp]
    simp [ih]

theorem findRule_eq_none_of_not_infix : ∀ (s : List Char), ¬ RULE <:+: s →
    findRule s = none
  | [], _ => rfl
  | c :: cs, h => by
    have hp : RULE.isPrefixOf (c :: cs) = false := by
      cases hb : RULE.isPrefixOf (c :: cs) with
      | false => rfl
      | true =>
        obtain ⟨t, ht⟩ := isPrefixOf_eq_true_iff.1 hb
        exact absurd (isInfix_iff_exists_append.2 ⟨[], t, by simpa using ht⟩) h
    have ih := findRule_eq_none_of_not_infix cs
      (fun hm => h (isInfix_of_isInfix_cons hm))
    rw [findRule_cons, hp]
    simp [ih]

theorem rule_prefixOf_of_findRule : ∀ {s : List Char} {k : Nat},
    findRule s = some k → RULE.isPrefixOf (s.drop k) = true := by
  intro s
  induction s with
  | nil => intro k h; exact absurd h (by rw [findRule]; simp)
  | cons c cs ih =>
    intro k h
    rw [findRule_cons] at h
    by_cases hp : RULE.isPrefixOf (c :: cs) = true
    · rw [hp] at h
      simp only [if_true] at h
      cases h
      exact hp
    · rw [if_neg hp] at h
      match k, h with
      | 0, h => simp at h
      | k' + 1, h =>
        have : findRule cs = some k' := by
          cases hr : findRule cs with
          | none => rw [hr] at h; simp at h
          | some j =>
            rw [hr] at h
            rw [Option.map_some'] at h
            injection h with h
            have hj : j = k' := by omega
            rw [hj]
        exact ih this

theorem take_append_self : ∀ (l₁ l₂ : List Char), (l₁ ++ l₂).take l₁.length = l₁
  | [], _ => rfl
  | c :: l, l₂ => by
    rw [List.cons_append, List.length_cons, List.take_succ_cons, take_append_self l l₂]

/-- Dropping the delimiter plus `n` characters from `RULE ++ l` drops `n`
characters from `l` (the index is written `n + 4` so the statement reduces
definitionally). -/
theorem drop_rule_append (l : List Char) (n : Nat) :
    (RULE ++ l).drop (n + 4) = l.drop n := rfl

theorem drop_append_len : ∀ (l₁ l₂ : List Char) (n : Nat),
    (l₁ ++ l₂).drop (l₁.length + n) = l₂.drop n
  | [], _, _ => by simp
  | c :: l, l₂, n => by
    rw [List.cons_append, List.length_cons,
      show l.length + 1 + n = (l.length + n) + 1 from by omega,
      List.drop_succ_cons, drop_append_len l l₂ n]

/-- Forward evaluation of the parser on a decomposed document: when the
delimiter does not occur inside `m`, the document `RULE ++ m ++ RULE ++ b`
parses to metadata `m` and body `b`. -/
theorem parse_raw_append (m b : List Char) (h : ¬ RULE <:+: m) :
    parse_raw (RULE ++ (m ++ (RULE ++ b))) = (some m, b) := by
  have h0 : findRule (RULE ++ (m ++ (RULE ++ b))) = some 0 := by
    simpa using findRule_append [] (m ++ (RULE ++ b)) not_infix_nil
  have h1 : findRule ((RULE ++ (m ++ (RULE ++ b))).drop RULE_LENGTH) = some m.length := by
    show findRule (m ++ (RULE ++ b)) = some m.length
    exact findRule_append m b h
  unfold parse_raw
  rw [h0, h1]
  show (some ((m ++ (RULE ++ b)).take m.length),
    (RULE ++ (m ++ (RULE ++ b))).drop (RULE_LENGTH + m.length + RULE_LENGTH)) = (some m, b)
  rw [take_append_self]
  rw [show RULE_LENGTH + m.length + RULE_LENGTH = (m.length + RULE_LENGTH) + 4 from by
    simp only [RULE_LENGTH]; omega]
  rw [drop_rule_append (m ++ (RULE ++ b)) (m.length + RULE_LENGTH)]
  rw [show m.length + RULE_LENGTH = m.length + 4 from rfl]
  rw [drop_append_len m (RULE ++ b) 4]
  rfl

/-- A document that does not begin with the delimiter parses to no
frontmatter and the whole input as body. -/
theorem parse_raw_none_of_not_head {s : List Char} (h : ¬ RULE <+: s) :
    parse_raw s = (none, s) := by
  have hp : RULE.isPrefixOf s = false := by
    cases hb : RULE.isPrefixOf s with
    | false => rfl
    | true =>
      obtain ⟨t, ht⟩ := isPrefixOf_eq_true_iff.1 hb
      exact absurd ⟨t, ht.symm⟩ h
  cases s with
  | nil => rfl
  | cons c cs =>
    unfold parse_raw
    rw [findRule_cons, hp]
    simp only [Bool.false_eq_true, if_false]
    cases hr : findRule cs with
    | none => rfl
    | some j => rfl

/-- A document whose tail after the opening delimiter never contains the
delimiter again parses to no frontmatter and the whole input as body. -/
theorem parse_raw_none_of_unclosed {s : List Char}
    (h : ¬ RULE <:+: (s.drop RULE_LENGTH)) : parse_raw s = (none, s) := by
  have h4 := findRule_eq_none_of_not_infix _ h
  unfold parse_raw
  cases hr : findRule s with
  | none => rfl
  | some k =>
    cases k with
    | zero => rw [h4]
    | succ k' => rfl

/-- Structural characterization of the parser: it either returns the whole
input as body, or the input splits exactly as opening delimiter, metadata,
closing delimiter, body. -/
theorem parse_raw_decomp (s : List Char) :
    parse_raw s = (none, s) ∨
      ∃ m b, parse_raw s = (some m, b) ∧ s = RULE ++ (m ++ (RULE ++ b)) := by
  cases hr : findRule s with
  | none =>
    left
    unfold parse_raw
    rw [hr]
  | some k =>
    rcases k with _ | k'
    · cases h4 : findRule (s.drop RULE_LENGTH) with
      | none =>
        left
        unfold parse_raw
        rw [hr, h4]
      | some k =>
        right
        obtain ⟨t0, ht0⟩ := isPrefixOf_eq_true_iff.1 (rule_prefixOf_of_findRule hr)
        rw [List.drop_zero] at ht0
        refine ⟨(s.drop RULE_LENGTH).take k, s.drop (RULE_LENGTH + k + RULE_LENGTH), ?_, ?_⟩
        · unfold parse_raw
          rw [hr, h4]
        · subst ht0
          have hd : (RULE ++ t0).drop RULE_LENGTH = t0 := rfl
          rw [hd] at h4
          obtain ⟨t1, ht1⟩ := isPrefixOf_eq_true_iff.1 (rule_prefixOf_of_findRule h4)
          have hb : (RULE ++ t0).drop (RULE_LENGTH + k + RULE_LENGTH) = t1 := by
            rw [show RULE_LENGTH + k + RULE_LENGTH = (k + RULE_LENGTH) + 4 from by
              simp only [RULE_LENGTH]; omega]
            rw [drop_rule_append t0 (k + RULE_LENGTH)]
            rw [show k + RULE_LENGTH = k + 4 from rfl]
            rw [← List.drop_drop, ht1]
            rfl
          rw [hd, hb]
          have := List.take_append_drop k t0
          conv_lhs => rw [show RULE ++ t0 = RULE ++ (t0.take k ++ t0.drop k) from by rw [this]]
          rw [ht1]
    · left
      unfold parse_raw
      rw [hr]
      rfl

end Frontmatter

open Frontmatter Engine

/-- C1: for every document whose very first line is the delimiter and in
which the delimiter occurs again later (equivalently, every document of the
form `RULE ++ m ++ RULE ++ b` where the next delimiter occurrence is the one
shown, i.e. the delimiter does not occur inside `m`), `parse_raw` returns the
text strictly between the two delimiters as the metadata block and everything
after the closing delimiter as the body. -/
theorem claim_C1 (m b : List Char) (h : ¬ RULE <:+: m) :
    parse_raw (RULE ++ (m ++ (RULE ++ b))) = (some m, b) :=
  parse_raw_append m b h

/-- Witness for C1: the delimiter-law example yields metadata `"A: 1\n"` and
body `"BODY"`, and a document consisting only of frontmatter yields an empty
body. -/
theorem claim_C1_witness :
    parse_raw ("---\nA: 1\n---\nBODY".toList) = (some "A: 1\n".toList, "BODY".toList) ∧
    parse_raw ("---\nhello: world\n---\n".toList) = (some "hello: world\n".toList, []) :=
  ⟨claim_C1 "A: 1\n".toList "BODY".toList (by decide),
   claim_C1 "hello: world\n".toList [] (by decide)⟩

/-- C2: a document that does not begin with the delimiter, or that begins
with it but contains no second occurrence anywhere after it, parses to no
metadata block with the entire original text as the body. -/
theorem claim_C2 (s : List Char)
    (h : ¬ RULE <+: s ∨ ¬ RULE <:+: (s.drop RULE_LENGTH)) :
    parse_raw s = (none, s) := by
  rcases h with h | h
  · exact parse_raw_none_of_not_head h
  · exact parse_raw_none_of_unclosed h

/-- Witness for C2: the no-frontmatter law on `"BODY"` (no leading delimiter)
and `"---\nunclosed"` (leading delimiter, no second occurrence), and the
empty document. -/
theorem claim_C2_witness :
    parse_raw ("BODY".toList) = (none, "BODY".toList) ∧
    parse_raw ("---\nunclosed".toList) = (none, "---\nunclosed".toList) ∧
    parse_raw ([] : List Char) = (none, []) :=
  ⟨claim_C2 _ (.inl (by decide)), claim_C2 _ (.inr (by decide)),
   claim_C2 _ (.inl (by decide))⟩

/-- C3: adjacent delimiters yield an empty metadata block with the rest as
body; decoding the empty block fails with a decode error; and when no
metadata block is present, `parse` never attempts decoding (its first
component stays `none`, so no error is produced). -/
theorem claim_C3 :
    parse_raw ("---\n---\nBODY".toList) = (some [], "BODY".toList) ∧
    yaml_from_str [] = .error .emptyInput ∧
    ∀ s : List Char, (parse_raw s).1 = none → (parse s).1 = none := by
  refine ⟨rfl, rfl, ?_⟩
  intro s h
  show (parse_raw s).1.map yaml_from_str = none
  simp [h]

/-- Witness for C3: a document with no frontmatter propagates `none` through
`parse` without any decoding error. -/
theorem claim_C3_witness : (parse ("BODY".toList)).1 = none :=
  claim_C3.2.2 _ rfl

/-- Counterexample for C4: in `"---\nkey: a---\nBODY"` no line is exactly
`---` after the opening delimiter, so under the claim the closing delimiter
would not be found and the result would be `(none, input)`; the code instead
accepts the mid-line occurrence of `"---\n"` as the closing delimiter and
returns metadata `"key: a"` with body `"BODY"`. -/
theorem counterexample_C4 :
    parse_raw ("---\nkey: a---\nBODY".toList) ≠
      (none, "---\nkey: a---\nBODY".toList) ∧
    parse_raw ("---\nkey: a---\nBODY".toList) =
      (some "key: a".toList, "BODY".toList) := by
  constructor
  · intro h
    have h2 : parse_raw ("---\nkey: a---\nBODY".toList) =
        (some "key: a".toList, "BODY".toList) := rfl
    rw [h] at h2
    simp at h2
  · rfl

/-- C4 (amended): the closing delimiter is the next occurrence of the literal
string `"---\n"` anywhere after the opening delimiter, even when that
occurrence starts in the middle of a line (the character before it is not a
newline), rather than only a line consisting exactly of three hyphens. -/
theorem claim_C4 (m b : List Char) (h : ¬ RULE <:+: m)
    (_hmid : m.getLast? ≠ some '\n') :
    parse_raw (RULE ++ (m ++ (RULE ++ b))) = (some m, b) :=
  parse_raw_append m b h

/-- Witness for C4: the closing delimiter of `"---\nkey: a---\nBODY"` starts
mid-line, after the text `"key: a"`. -/
theorem claim_C4_witness :
    parse_raw (RULE ++ ("key: a".toList ++ (RULE ++ "BODY".toList))) =
      (some "key: a".toList, "BODY".toList) :=
  claim_C4 "key: a".toList "BODY".toList (by decide) (by decide)

/-- C10: `parse_raw` loses no text — it either returns the whole input as the
body with no metadata, or the input is exactly the concatenation of opening
delimiter, metadata, closing delimiter and body; consequently the body is
always a suffix of the input, and the index bounds asserted by the source
(`start <= close` and `content_start <= s.len()`) always hold. -/
theorem claim_C10 :
    (∀ s : List Char, parse_raw s = (none, s) ∨
      ∃ m b, parse_raw s = (some m, b) ∧ s = RULE ++ (m ++ (RULE ++ b))) ∧
    (∀ s : List Char, ∃ t, t ++ (parse_raw s).2 = s) ∧
    (∀ s m b, parse_raw s = (some m, b) →
      RULE_LENGTH ≤ RULE_LENGTH + m.length ∧
      RULE_LENGTH + m.length + RULE_LENGTH ≤ s.length) := by
  refine ⟨parse_raw_decomp, ?_, ?_⟩
  · intro s
    rcases parse_raw_decomp s with h | ⟨m, b, h, hs⟩
    · exact ⟨[], by simp [h]⟩
    · refine ⟨RULE ++ (m ++ RULE), ?_⟩
      rw [h, hs]
      simp
  · intro s m b h
    rcases parse_raw_decomp s with h' | ⟨m', b', h', hs⟩
    · rw [h] at h'
      simp at h'
    · rw [h] at h'
      obtain ⟨hm, hb⟩ := Prod.mk.injEq .. ▸ h'
      cases Option.some.injEq .. ▸ hm
      constructor
      · omega
      · have := congrArg List.length hs
        simp [RULE, RULE_LENGTH] at this ⊢
        omega


namespace Frontmatter

theorem splitColon_eq : ∀ {l k rest : List Char}, splitColon l = some (k, rest) →
    l = k ++ ':' :: rest := by
  intro l
  induction l with
  | nil => intro k rest h; simp [splitColon] at h
  | cons c cs ih =>
    intro k rest h
    simp only [splitColon] at h
    by_cases hc : c = ':'
    · rw [if_pos hc] at h
      injection h with h
      injection h with h1 h2
      subst h1; subst h2; subst hc
      rfl
    · rw [if_neg hc] at h
      cases hs : splitColon cs with
      | none => rw [hs] at h; simp at h
      | some p =>
        obtain ⟨k', rest'⟩ := p
        rw [hs, Option.map_some'] at h
        injection h with h
        injection h with h1 h2
        subst h1; subst h2
        rw [List.cons_append, ih hs]

theorem parseLine_eq {l k v : List Char} (h : parseLine l = some (k, v)) :
    l = k ++ ':' :: ' ' :: v := by
  unfold parseLine at h
  cases hs : splitColon l with
  | none => rw [hs] at h; simp at h
  | some p =>
    obtain ⟨k0, r0⟩ := p
    rw [hs] at h
    cases r0 with
    | nil => simp at h
    | cons c0 v0 =>
      simp only [] at h
      by_cases hc : c0 = ' '
      · rw [if_pos hc] at h
        by_cases hk : k0.isEmpty
        · rw [if_pos hk] at h; simp at h
        · rw [if_neg hk] at h
          injection h with h
          injection h with h1 h2
          subst h1; subst h2; subst hc
          exact splitColon_eq hs
      · rw [if_neg hc] at h; simp at h

/-- The canonical-form decode/encode round trip at the line-scanner level:
whatever key/value pairs the scanner extracts from the remaining text
`cur.reverse ++ s` serialize back to exactly that text. -/
theorem decodeLinesAux_encode : ∀ (s cur : List Char) (kvs : List (List Char × List Char)),
    decodeLinesAux cur s = some kvs →
    encodeKVs (kvs.map (fun p => (p.1, YamlValue.str p.2))) = cur.reverse ++ s
  | [], cur, kvs => by
    intro h
    cases cur with
    | cons c cs => simp [decodeLinesAux] at h
    | nil =>
      simp only [decodeLinesAux, List.isEmpty_nil, if_true] at h
      injection h with h
      subst h
      rfl
  | c :: cs, cur, kvs => by
    intro h
    simp only [decodeLinesAux] at h
    by_cases hc : c = '\n'
    · rw [if_pos hc] at h
      cases hp : parseLine cur.reverse with
      | none => rw [hp] at h; simp at h
      | some kv =>
        obtain ⟨k, v⟩ := kv
        rw [hp] at h
        cases hd : decodeLinesAux [] cs with
        | none => rw [hd] at h; simp at h
        | some kvs' =>
          rw [hd] at h
          simp only [Option.map_some', Option.some.injEq] at h
          subst h
          have ih := decodeLinesAux_encode cs [] kvs' hd
          simp only [List.reverse_nil, List.nil_append] at ih
          have hl := parseLine_eq hp
          subst hc
          simp only [List.map_cons, encodeKVs, encodeScalar]
          rw [ih, hl]
          simp
    · rw [if_neg hc] at h
      have ih := decodeLinesAux_encode cs (c :: cur) kvs h
      rw [ih]
      simp

/-- Every successful decode is a flat mapping whose values are string
scalars, obtained from the line scanner. -/
theorem yaml_from_str_ok {s : List Char} {v : YamlValue} (h : yaml_from_str s = .ok v) :
    ∃ kvs, decodeLinesAux [] s = some kvs ∧
      v = .mapping (kvs.map (fun p => (p.1, YamlValue.str p.2))) := by
  unfold yaml_from_str at h
  by_cases he : s.isEmpty
  · rw [if_pos he] at h
    exact absurd h (by simp)
  · rw [if_neg he] at h
    cases hd : decodeLinesAux [] s with
    | none => rw [hd] at h; exact absurd h (by simp)
    | some kvs =>
      rw [hd] at h
      injection h with h
      exact ⟨kvs, rfl, h.symm⟩

/-- Decoding then re-serializing reproduces the original metadata block text
byte for byte. -/
theorem yaml_roundtrip {s : List Char} {v : YamlValue} (h : yaml_from_str s = .ok v) :
    yaml_to_string v = s := by
  obtain ⟨kvs, hd, hv⟩ := yaml_from_str_ok h
  subst hv
  have := decodeLinesAux_encode s [] kvs hd
  simpa [yaml_to_string] using this

end Frontmatter

namespace Engine

theorem toLuaEntries_strs (kvs : List (List Char × List Char)) :
    toLuaEntries (kvs.map (fun p => (p.1, Frontmatter.YamlValue.str p.2))) =
      kvs.map (fun p => (p.1, LuaValue.str p.2)) := by
  induction kvs with
  | nil => rfl
  | cons p rest ih =>
    obtain ⟨k, w⟩ := p
    simp [toLuaEntries, toLua, ih]

theorem fromLuaEntries_strs (kvs : List (List Char × List Char)) :
    fromLuaEntries (kvs.map (fun p => (p.1, LuaValue.str p.2))) =
      .ok (kvs.map (fun p => (p.1, Frontmatter.YamlValue.str p.2))) := by
  induction kvs with
  | nil => rfl
  | cons p rest ih =>
    obtain ⟨k, w⟩ := p
    simp only [List.map_cons, fromLuaEntries, fromLuaValue, ih]
    rfl

/-- The serde bridge round trip on decoder-produced values: a flat mapping of
string scalars survives the trip into the engine's value space and back
unchanged. -/
theorem fromLua_toLua_decoded (kvs : List (List Char × List Char)) :
    fromLuaValue (toLua (.mapping (kvs.map (fun p => (p.1, Frontmatter.YamlValue.str p.2))))) =
      .ok (.mapping (kvs.map (fun p => (p.1, Frontmatter.YamlValue.str p.2)))) := by
  simp only [toLua, toLuaEntries_strs, fromLuaValue, fromLuaEntries_strs]
  rfl

theorem lookupEntry_setEntry_self : ∀ (g : List (List Char × LuaValue))
    (n : List Char) (v : LuaValue), lookupEntry (setEntry g n v) n = some v
  | [], n, v => by simp [setEntry, lookupEntry]
  | (k, w) :: rest, n, v => by
    by_cases hk : k = n
    · simp [setEntry, hk, lookupEntry]
    · simp [setEntry, hk, lookupEntry, lookupEntry_setEntry_self rest n v]

theorem lookupEntry_setEntry_ne : ∀ (g : List (List Char × LuaValue))
    (n : List Char) (v : LuaValue) {k : List Char}, k ≠ n →
    lookupEntry (setEntry g n v) k = lookupEntry g k
  | [], n, v, k, hk => by simp [setEntry, lookupEntry, Ne.symm hk]
  | (k', w) :: rest, n, v, k, hk => by
    by_cases h1 : k' = n
    · subst h1
      simp [setEntry, lookupEntry, Ne.symm hk]
    · simp [setEntry, h1, lookupEntry, lookupEntry_setEntry_ne rest n v hk]

theorem lookupEntry_removeEntry_self : ∀ (g : List (List Char × LuaValue))
    (n : List Char), lookupEntry (removeEntry g n) n = none
  | [], _ => rfl
  | (k, w) :: rest, n => by
    by_cases hk : k = n
    · simp [removeEntry, hk, lookupEntry_removeEntry_self rest n]
    · simp [removeEntry, hk, lookupEntry, lookupEntry_removeEntry_self rest n]

theorem lookupEntry_removeEntry_ne : ∀ (g : List (List Char × LuaValue))
    (n : List Char) {k : List Char}, k ≠ n →
    lookupEntry (removeEntry g n) k = lookupEntry g k
  | [], _, _, _ => rfl
  | (k', w) :: rest, n, k, hk => by
    by_cases h1 : k' = n
    · subst h1
      simp [removeEntry, lookupEntry, Ne.symm hk,
        lookupEntry_removeEntry_ne rest _ hk]
    · simp [removeEntry, h1, lookupEntry, lookupEntry_removeEntry_ne rest n hk]

theorem setVal_eq_setEntry {v : LuaValue} (hv : v ≠ .nil) (g : Globals) (n : List Char) :
    setVal g n v = setEntry g n v := by
  cases v <;> first | rfl | exact absurd rfl hv

theorem lookup_setVal_self {v : LuaValue} (hv : v ≠ .nil) (g : Globals) (n : List Char) :
    lookupEntry (setVal g n v) n = some v := by
  rw [setVal_eq_setEntry hv, lookupEntry_setEntry_self]

theorem lookup_setVal_ne (g : Globals) (n : List Char) (v : LuaValue) {k : List Char}
    (hk : k ≠ n) : lookupEntry (setVal g n v) k = lookupEntry g k := by
  cases v
  case nil => exact lookupEntry_removeEntry_ne g n hk
  all_goals exact lookupEntry_setEntry_ne g n _ hk

theorem metaName_ne_contentName : metaName ≠ contentName := by decide

theorem bindDoc_none_eq {doc : List Char} (g : Globals)
    (hp : (Frontmatter.parse_raw doc).1 = none) :
    bindDoc g doc = .ok (setVal (removeEntry g metaName) contentName
      (.str (Frontmatter.parse_raw doc).2), (Frontmatter.parse_raw doc).2) := by
  unfold bindDoc
  rw [hp]

theorem bindDoc_some_eq {doc m : List Char} (g : Globals)
    (hp : (Frontmatter.parse_raw doc).1 = some m) :
    bindDoc g doc = (match Frontmatter.yaml_from_str m with
      | .error e => .error (.decode e)
      | .ok v => .ok (setVal (setVal g metaName (toLua v)) contentName
          (.str (Frontmatter.parse_raw doc).2), (Frontmatter.parse_raw doc).2)) := by
  unfold bindDoc
  rw [hp]

/-- What holds of the globals after the binding phase of `Fixer::fix`: the
body is the parser's body slice, `content` is bound to it as an opaque string,
and `meta` is exactly the decoded metadata — absent when the document has no
frontmatter, the bridged decoded value when it does. -/
theorem bindDoc_ok {g : Globals} {doc : List Char} {g₂ : Globals} {c : List Char}
    (h : bindDoc g doc = .ok (g₂, c)) :
    c = (Frontmatter.parse_raw doc).2 ∧
    lookupEntry g₂ contentName = some (.str c) ∧
    ((Frontmatter.parse_raw doc).1 = none → lookupEntry g₂ metaName = none) ∧
    (∀ m v, (Frontmatter.parse_raw doc).1 = some m →
      Frontmatter.yaml_from_str m = .ok v →
      lookupEntry g₂ metaName = some (toLua v)) := by
  cases hp : (Frontmatter.parse_raw doc).1 with
  | none =>
    rw [bindDoc_none_eq g hp] at h
    injection h with h
    injection h with hg hc
    subst hg
    subst hc
    refine ⟨rfl, lookup_setVal_self (by simp) _ _, fun _ => ?_, fun m v hm => ?_⟩
    · rw [lookup_setVal_ne _ _ _ metaName_ne_contentName,
        lookupEntry_removeEntry_self]
    · exact absurd hm (by simp)
  | some m =>
    rw [bindDoc_some_eq g hp] at h
    cases hv : Frontmatter.yaml_from_str m with
    | error e =>
      rw [hv] at h
      exact absurd h (by simp)
    | ok v =>
      rw [hv] at h
      injection h with h
      injection h with hg hc
      subst hg
      subst hc
      refine ⟨rfl, lookup_setVal_self (by simp) _ _, fun hm => ?_, fun m' v' hm hv' => ?_⟩
      · exact absurd hm (by simp)
      · injection hm with hm
        subst hm
        rw [hv] at hv'
        injection hv' with hv'
        subst hv'
        obtain ⟨kvs, _, hshape⟩ := Frontmatter.yaml_from_str_ok hv
        rw [lookup_setVal_ne _ _ _ metaName_ne_contentName]
        subst hshape
        exact lookup_setVal_self (by simp [toLua]) _ _

end Engine

/-- C5: if, after the script executes, the `meta` binding is absent from the
engine environment, the document's final metadata is `None` — frontmatter is
dropped even if it was present in the input — and reassembly emits the body
verbatim with no delimiter lines; if `meta` is present it is converted back,
and a conversion failure aborts that document with an error. -/
theorem claim_C5 :
    (∀ (stmts : List Stmt) (g : Globals) (doc : List Char) (g₂ g₃ : Globals)
      (c : List Char),
      bindDoc g doc = .ok (g₂, c) → runStmts stmts g₂ = (g₃, none) →
      lookupEntry g₃ metaName = none →
      (Fixer.mk stmts).fix g doc = (g₃, .ok (none, c)) ∧
        Frontmatter.write none c = c) ∧
    (∀ (stmts : List Stmt) (g : Globals) (doc : List Char) (g₂ g₃ : Globals)
      (c : List Char) (e : ConversionError),
      bindDoc g doc = .ok (g₂, c) → runStmts stmts g₂ = (g₃, none) →
      readBack g₃ = .error e →
      (Fixer.mk stmts).fix g doc = (g₃, .error (.conversion e))) := by
  constructor
  · intro stmts g doc g₂ g₃ c hb hr hm
    refine ⟨?_, rfl⟩
    simp only [Fixer.fix, hb, hr, readBack, hm]
  · intro stmts g doc g₂ g₃ c e hb hr hrb
    simp only [Fixer.fix, hb, hr, hrb]

/-- Witness for C5: on a document with frontmatter, a script that sets `meta`
to nil yields metadata `None` and a delimiter-free reassembly, and a script
that sets `meta` to a function makes the document fail with a conversion
error. -/
theorem claim_C5_witness :
    ((Fixer.mk [Stmt.assign metaName (Expr.const .nil)]).fix emptyGlobals
        ("---\nhello: world\n---\nBODY".toList) =
      ([(contentName, LuaValue.str "BODY".toList)], .ok (none, "BODY".toList)) ∧
      Frontmatter.write none ("BODY".toList) = "BODY".toList) ∧
    (Fixer.mk [Stmt.assign metaName (Expr.const .function)]).fix emptyGlobals
        ("---\nhello: world\n---\nBODY".toList) =
      ([(metaName, LuaValue.function), (contentName, LuaValue.str "BODY".toList)],
        .error (.conversion .unrepresentable)) :=
  ⟨claim_C5.1 _ emptyGlobals _ _ _ _ rfl rfl rfl,
   claim_C5.2 _ emptyGlobals _ _ _ _ _ rfl rfl rfl⟩

/-- C6: no `meta` binding leaks from one document to the next — whatever the
incoming globals, the binding phase leaves `meta` absent when the document has
no frontmatter and overwrites it with the document's own decoded value when it
does. -/
theorem claim_C6 (g : Globals) (doc : List Char) (g₂ : Globals) (c : List Char)
    (h : bindDoc g doc = .ok (g₂, c)) :
    ((Frontmatter.parse_raw doc).1 = none → lookupEntry g₂ metaName = none) ∧
    (∀ m v, (Frontmatter.parse_raw doc).1 = some m →
      Frontmatter.yaml_from_str m = .ok v →
      lookupEntry g₂ metaName = some (toLua v)) :=
  ⟨(bindDoc_ok h).2.2.1, (bindDoc_ok h).2.2.2⟩

/-- Witness for C6: after processing document A (frontmatter `x: 1`), whose
final globals still carry A's `meta`, binding frontmatter-less document B
leaves `meta` absent for B's script. -/
theorem claim_C6_witness :
    lookupEntry [(contentName, LuaValue.str "BODY".toList)] metaName = none :=
  (claim_C6 [(metaName, LuaValue.table [("x".toList, LuaValue.str "1".toList)]),
      (contentName, LuaValue.str "A".toList)]
    ("BODY".toList) [(contentName, LuaValue.str "BODY".toList)] ("BODY".toList) rfl).1 rfl

/-- C7: the output body never depends on what the script does to `content` —
any successful run returns the body captured by the parser before the script
ran — and a script whose first statement writes a field onto `content` fails
the document with a script runtime error at that mutation. -/
theorem claim_C7 :
    (∀ (stmts : List Stmt) (g : Globals) (doc : List Char)
      (m : Option Frontmatter.YamlValue) (b : List Char),
      ((Fixer.mk stmts).fix g doc).2 = .ok (m, b) →
      b = (Frontmatter.parse_raw doc).2) ∧
    (∀ (g : Globals) (doc : List Char) (g₂ : Globals) (c : List Char)
      (key : List Char) (e : Expr) (rest : List Stmt),
      bindDoc g doc = .ok (g₂, c) →
      ∃ err, ((Fixer.mk (Stmt.setIndex contentName key e :: rest)).fix g doc).2 =
        .error (.script err)) := by
  constructor
  · intro stmts g doc m b h
    cases hb : bindDoc g doc with
    | error e =>
      simp only [Fixer.fix, hb] at h
      exact absurd h (by simp)
    | ok p =>
      obtain ⟨g₂, c⟩ := p
      cases hr : runStmts stmts g₂ with
      | mk g₃ oe =>
        cases oe with
        | some e =>
          simp only [Fixer.fix, hb, hr] at h
          exact absurd h (by simp)
        | none =>
          cases hrb : readBack g₃ with
          | error e =>
            simp only [Fixer.fix, hb, hr, hrb] at h
            exact absurd h (by simp)
          | ok mv =>
            simp only [Fixer.fix, hb, hr, hrb] at h
            injection h with h
            injection h with h1 h2
            subst h2
            exact (bindDoc_ok hb).1
  · intro g doc g₂ c key e rest hb
    have hc : lookupEntry g₂ contentName = some (.str c) := (bindDoc_ok hb).2.1
    cases hev : eval g₂ e with
    | error er =>
      refine ⟨er, ?_⟩
      simp only [Fixer.fix, hb, runStmts, execStmt, hev, hc]
      rfl
    | ok v =>
      refine ⟨.attemptToIndex, ?_⟩
      simp only [Fixer.fix, hb, runStmts, execStmt, hev, hc]
      rfl

/-- Witness for C7: reassigning `content` leaves the output body equal to the
parser's body slice, and writing a field onto `content` fails the document
with a script runtime error. -/
theorem claim_C7_witness :
    "# Title\n".toList =
      (Frontmatter.parse_raw ("---\nhello: world\n---\n# Title\n".toList)).2 ∧
    ∃ err, ((Fixer.mk [Stmt.setIndex contentName ("fudge".toList)
        (Expr.const (.str "vanilla".toList))]).fix emptyGlobals
        ("---\nhello: world\n---\n# Title\n".toList)).2 = .error (.script err) :=
  ⟨claim_C7.1 [Stmt.assign contentName (Expr.const (.str "vanilla".toList))]
      emptyGlobals ("---\nhello: world\n---\n# Title\n".toList)
      (some (.mapping [("hello".toList, .str "world".toList)])) ("# Title\n".toList) rfl,
   claim_C7.2 emptyGlobals ("---\nhello: world\n---\n# Title\n".toList) _ _
      ("fudge".toList) (Expr.const (.str "vanilla".toList)) [] rfl⟩

theorem processAll_length : ∀ (f : Fixer) (g : Globals) (docs : List (List Char)),
    (processAll f g docs).length = docs.length
  | _, _, [] => rfl
  | f, g, doc :: docs => by
    simp [processAll, processAll_length f (f.fix g doc).1 docs]

/-- C8: a script compile error is fatal to the whole run and aborts before
any document is processed, while per-document errors are caught at the loop
boundary: every document of the batch gets exactly one positional result, and
a failing document does not stop the remaining ones from being attempted. -/
theorem claim_C8 :
    (∀ docs : List (List Char), mainRun .invalid docs = .error .compile) ∧
    (∀ (stmts : List Stmt) (docs : List (List Char)),
      mainRun (.valid stmts) docs = .ok (processAll ⟨stmts⟩ emptyGlobals docs) ∧
      (processAll ⟨stmts⟩ emptyGlobals docs).length = docs.length) ∧
    (∀ (f : Fixer) (g : Globals) (doc : List Char) (docs : List (List Char)),
      processAll f g (doc :: docs) =
        (f.fix g doc).2 :: processAll f (f.fix g doc).1 docs) :=
  ⟨fun _ => rfl,
   fun stmts docs => ⟨rfl, processAll_length ⟨stmts⟩ emptyGlobals docs⟩,
   fun _ _ _ _ => rfl⟩

/-- C9: a no-op script on a document with well-formed frontmatter returns the
decoded metadata unchanged through the bridge, its serialization is
byte-identical to the original metadata block, and reassembly reproduces the
original document. -/
theorem claim_C9 (g : Globals) (doc m b : List Char) (v : Frontmatter.YamlValue)
    (hp : Frontmatter.parse_raw doc = (some m, b))
    (hv : Frontmatter.yaml_from_str m = .ok v) :
    ((Fixer.mk []).fix g doc).2 = .ok (some v, b) ∧
    Frontmatter.yaml_to_string v = m ∧
    Frontmatter.write (some v) b = doc := by
  obtain ⟨kvs, hd, hshape⟩ := Frontmatter.yaml_from_str_ok hv
  have hp1 : (Frontmatter.parse_raw doc).1 = some m := by rw [hp]
  have hp2 : (Frontmatter.parse_raw doc).2 = b := by rw [hp]
  have hb : bindDoc g doc =
      .ok (setVal (setVal g metaName (toLua v)) contentName (.str b), b) := by
    rw [bindDoc_some_eq g hp1, hv, hp2]
  have hmeta : lookupEntry (setVal (setVal g metaName (toLua v)) contentName (.str b))
      metaName = some (toLua v) := by
    rw [lookup_setVal_ne _ _ _ metaName_ne_contentName]
    subst hshape
    exact lookup_setVal_self (by simp [toLua]) _ _
  have hrt : fromLuaValue (toLua v) = .ok v := by
    subst hshape
    exact fromLua_toLua_decoded kvs
  refine ⟨?_, Frontmatter.yaml_roundtrip hv, ?_⟩
  · simp only [Fixer.fix, hb, runStmts, readBack, hmeta, hrt]
  · rcases Frontmatter.parse_raw_decomp doc with hh | ⟨m', b', h', hs⟩
    · rw [hp] at hh
      exact absurd hh (by simp)
    · rw [hp] at h'
      injection h' with h1 h2
      injection h1 with h1
      subst h1
      subst h2
      rw [hs]
      simp only [Frontmatter.write]
      rw [Frontmatter.yaml_roundtrip hv]

/-- Witness for C9: the end-to-end example document is reproduced exactly by
a no-op script. -/
theorem claim_C9_witness :
    ((Fixer.mk []).fix emptyGlobals ("---\nhello: world\n---\n# Title\n".toList)).2 =
      .ok (some (.mapping [("hello".toList, .str "world".toList)]), "# Title\n".toList) ∧
    Frontmatter.yaml_to_string (.mapping [("hello".toList, .str "world".toList)]) =
      "hello: world\n".toList ∧
    Frontmatter.write (some (.mapping [("hello".toList, .str "world".toList)]))
        ("# Title\n".toList) = "---\nhello: world\n---\n# Title\n".toList :=
  claim_C9 emptyGlobals _ _ _ _ rfl rfl

/-- Witness for C10: at the delimiter-law input the index bounds of the
source's `assert!` statements hold. -/
theorem claim_C10_witness :
    Frontmatter.RULE_LENGTH ≤ Frontmatter.RULE_LENGTH + ("A: 1\n".toList).length ∧
    Frontmatter.RULE_LENGTH + ("A: 1\n".toList).length + Frontmatter.RULE_LENGTH ≤
      ("---\nA: 1\n---\nBODY".toList).length :=
  claim_C10.2.2 ("---\nA: 1\n---\nBODY".toList) ("A: 1\n".toList) ("BODY".toList) rfl
